import Mathlib

/-!
# kazmath: 3x3 matrices and 2D vectors

A shallow embedding of `src/src/mat3.c` and `src/kazmath/vec2.c`.

Conventions of the embedding.

* `kmScalar` (a C `float`) is modelled by an arbitrary exact scalar type `K`
  (a commutative ring, a field or a linearly ordered field, as the function
  needs); concrete evaluations are carried out over `ℚ`, and over `ℝ` where
  the code calls the C math library.
* `kmMat3` is the C struct holding `kmScalar mat[9]`, column-major: the element
  in row `r`, column `c` sits at index `c * 3 + r`.
* A function that computes its result from the values of its inputs before it
  writes anything through `pOut` is a function on values, returning the nine
  scalars it leaves in `*pOut`.  A function whose writes through `pOut` are
  interleaved with its reads is a function on a store `Mem`, with the pointers
  passed as addresses.
* A read `pIn->mat[i]` with `i ≥ 9` falls outside the array.  Such a read is
  answered by an explicit environment `oob : Nat → K` (what the machine finds
  past the array), so that the places where the code depends on it are visible.
* `kmVec2RotateBy` writes through `pOut` before it has finished reading, and is
  a function on a store of vectors `VMem`.
-/

namespace KazMath

/-! ## Data model -/

/-- The C struct `kmMat3`: nine scalars `mat[0..8]`, column-major. -/
@[ext]
structure kmMat3 (K : Type) where
  mat : Fin 9 → K

/-- The C struct `kmVec2`: two scalars `x` and `y`. -/
@[ext]
structure kmVec2 (K : Type) where
  x : K
  y : K

instance {K : Type} [DecidableEq K] : DecidableEq (kmMat3 K) := fun a b =>
  decidable_of_iff (a.mat = b.mat) (by
    constructor
    · intro h
      exact kmMat3.ext h
    · intro h
      rw [h])

instance {K : Type} [DecidableEq K] : DecidableEq (kmVec2 K) := fun a b =>
  decidable_of_iff (a.x = b.x ∧ a.y = b.y) (by
    constructor
    · rintro ⟨h1, h2⟩
      exact kmVec2.ext h1 h2
    · intro h
      rw [h]
      exact ⟨rfl, rfl⟩)

/-- The store `pOut->mat[i] = v`. -/
def kmMat3.set {K : Type} (m : kmMat3 K) (i : Fin 9) (v : K) : kmMat3 K :=
  ⟨Function.update m.mat i v⟩

/-- The read `pIn->mat[i]` for an arbitrary C index `i`: the array element when
`i < 9`, and otherwise whatever lies past the array, as given by `oob`. -/
def kmMat3.read {K : Type} (m : kmMat3 K) (oob : Nat → K) (i : Nat) : K :=
  if h : i < 9 then m.mat ⟨i, h⟩ else oob i

/-- The flattened index `a * 3 + b` of the 3x3 grid. -/
def idx3 (a b : Fin 3) : Fin 9 :=
  ⟨a.val * 3 + b.val, by omega⟩

/-- `memset(pOut->mat, 0, sizeof(float) * 9)`: all nine scalars zero. -/
def kmMat3Zero {K : Type} [Zero K] : kmMat3 K :=
  ⟨fun _ => 0⟩

section Ring

variable {K : Type} [CommRing K]

/-! ## mat3.c -/

/-- `kmMat3Identity` (mat3.c 37-42): clear the array, then the chained assignment
`mat[0] = mat[4] = mat[8] = 1.0f`, which stores right to left. -/
def kmMat3Identity : kmMat3 K :=
  (((kmMat3Zero : kmMat3 K).set 8 1).set 4 1).set 0 1

/-- `kmMat3Determinant` (mat3.c 44-60): the sum of the three right-going
diagonals, from which the sum of the three others is subtracted. -/
def kmMat3Determinant (pIn : kmMat3 K) : K :=
  let output := pIn.mat 0 * pIn.mat 4 * pIn.mat 8 + pIn.mat 1 * pIn.mat 5 * pIn.mat 6
    + pIn.mat 2 * pIn.mat 3 * pIn.mat 7
  output - (pIn.mat 2 * pIn.mat 4 * pIn.mat 6 + pIn.mat 0 * pIn.mat 5 * pIn.mat 7
    + pIn.mat 1 * pIn.mat 3 * pIn.mat 8)

/-- The index table of `kmMat3Adjugate` (mat3.c 65-73).  The row `(a, b, c, d)`
at position `k` is the source line
`pOut->mat[k] = pIn->mat[a] * pIn->mat[b] - pIn->mat[c] * pIn->mat[d];`. -/
def kmMat3AdjugateIdx : Fin 9 → Nat × Nat × Nat × Nat :=
  ![(4, 8, 5, 7),
    (2, 7, 1, 8),
    (1, 5, 2, 4),
    (5, 6, 3, 8),
    (0, 8, 2, 6),
    (2, 3, 0, 5),
    (3, 7, 4, 6),
    (1, 6, 9, 7),
    (0, 4, 1, 3)]

/-- The input indices that the source line for `pOut->mat[k]` reads. -/
def kmMat3AdjugateReads (k : Fin 9) : List Nat :=
  let t := kmMat3AdjugateIdx k
  [t.1, t.2.1, t.2.2.1, t.2.2.2]

/-- `kmMat3Adjugate` (mat3.c 63-76): every output entry is a difference of two
products of input entries, read at the indices of `kmMat3AdjugateIdx`. -/
def kmMat3Adjugate (oob : Nat → K) (pIn : kmMat3 K) : kmMat3 K :=
  ⟨fun k =>
    let t := kmMat3AdjugateIdx k
    pIn.read oob t.1 * pIn.read oob t.2.1 - pIn.read oob t.2.2.1 * pIn.read oob t.2.2.2⟩

/-- `kmMat3Multiply` (mat3.c 120-141): the nine sums of products are computed
into the local array `mat`, which is what `memcpy` then leaves in `*pOut`. -/
def kmMat3Multiply (pM1 pM2 : kmMat3 K) : kmMat3 K :=
  let m1 := pM1.mat
  let m2 := pM2.mat
  ⟨![m1 0 * m2 0 + m1 3 * m2 1 + m1 6 * m2 2,
     m1 1 * m2 0 + m1 4 * m2 1 + m1 7 * m2 2,
     m1 2 * m2 0 + m1 5 * m2 1 + m1 8 * m2 2,
     m1 0 * m2 3 + m1 3 * m2 4 + m1 6 * m2 5,
     m1 1 * m2 3 + m1 4 * m2 4 + m1 7 * m2 5,
     m1 2 * m2 3 + m1 5 * m2 4 + m1 8 * m2 5,
     m1 0 * m2 6 + m1 3 * m2 7 + m1 6 * m2 8,
     m1 1 * m2 6 + m1 4 * m2 7 + m1 7 * m2 8,
     m1 2 * m2 6 + m1 5 * m2 7 + m1 8 * m2 8]⟩

/-- `kmMat3ScalarMultiply` (mat3.c 143-156): `mat[i] = pM->mat[i] * pFactor`
for `i = 0..8` into a local array, copied to `*pOut` at the end. -/
def kmMat3ScalarMultiply (pM : kmMat3 K) (pFactor : K) : kmMat3 K :=
  ⟨fun i => pM.mat i * pFactor⟩

/-- `kmMat3Translation` (mat3.c 219-227): clear the array, then store `x`, `y`
and `1.0` at the indices 6, 7 and 8. -/
def kmMat3Translation (x y : K) : kmMat3 K :=
  (((kmMat3Zero : kmMat3 K).set 6 x).set 7 y).set 8 1

/-! ## vec2.c -/

/-- `kmVec2Transform` (vec2.c 85-96): both components are computed into the
local `v` before they are written to `*pOut`. -/
def kmVec2Transform (pV : kmVec2 K) (pM : kmMat3 K) : kmVec2 K :=
  let vx := pV.x * pM.mat 0 + pV.y * pM.mat 3 + pM.mat 6
  let vy := pV.x * pM.mat 1 + pV.y * pM.mat 4 + pM.mat 7
  ⟨vx, vy⟩

/-! ## The store, for the functions that write through `pOut` as they go -/

/-- The store: the `kmMat3` object found at each address. -/
abbrev Mem (K : Type) := Nat → kmMat3 K

/-- The store `p->mat[i] = v` through the pointer `p`. -/
def Mem.store (mem : Mem K) (p : Nat) (i : Fin 9) (v : K) : Mem K :=
  Function.update mem p ((mem p).set i v)

/-- `memcpy(pOut->mat, mat, sizeof(float) * 9)` from a local array `mat`: nine
stores through `pOut`, in index order. -/
def memcpyLocal (mem : Mem K) (pOut : Nat) (mat : Fin 9 → K) : Mem K :=
  (List.finRange 9).foldl (fun st i => Mem.store st pOut i (mat i)) mem

/-- `kmMat3Transpose` (mat3.c 107-117) on the store: the double loop
`for z < 3, for x < 3` performs `pOut->mat[z * 3 + x] = pIn->mat[x * 3 + z]`,
each read seeing the stores made before it. -/
def kmMat3Transpose (mem : Mem K) (pOut pIn : Nat) : Mem K :=
  (List.finRange 3).foldl (fun stz z =>
    (List.finRange 3).foldl (fun st x =>
      Mem.store st pOut (idx3 z x) ((st pIn).mat (idx3 x z))) stz) mem

/-- `kmMat3Multiply` (mat3.c 120-141) on the store: the local array `mat` is
filled from the objects at `pM1` and `pM2`, and only then copied to `pOut`. -/
def kmMat3MultiplyMem (mem : Mem K) (pOut pM1 pM2 : Nat) : Mem K :=
  let mat := (kmMat3Multiply (mem pM1) (mem pM2)).mat
  memcpyLocal mem pOut mat

/-! ## Reference definitions, written from the mathematics -/

/-- The 3x3 matrix that a column-major `kmMat3` stands for: row `r`, column `c`
is the array element `c * 3 + r`. -/
def toMatrix (m : kmMat3 K) : Matrix (Fin 3) (Fin 3) K :=
  Matrix.of fun r c => m.mat (idx3 c r)

/-- The minor of `A` at `(r, c)`: the 2x2 determinant left after deleting row
`r` and column `c`. -/
def minor (A : Matrix (Fin 3) (Fin 3) K) (r c : Fin 3) : K :=
  A (r.succAbove 0) (c.succAbove 0) * A (r.succAbove 1) (c.succAbove 1)
    - A (r.succAbove 0) (c.succAbove 1) * A (r.succAbove 1) (c.succAbove 0)

/-- The cofactor of `A` at `(r, c)`: the signed minor. -/
def cofactor (A : Matrix (Fin 3) (Fin 3) K) (r c : Fin 3) : K :=
  (-1) ^ (r.val + c.val) * minor A r c

/-- The classical adjugate of `m`, by cofactor expansion, in the column-major
layout: the element in row `r`, column `c` is the cofactor at `(c, r)`. -/
def classicalAdjugate (m : kmMat3 K) : kmMat3 K :=
  ⟨fun i => cofactor (toMatrix m) ⟨i.val / 3, by omega⟩ ⟨i.val % 3, by omega⟩⟩

end Ring

section Field

variable {K : Type} [Field K] [DecidableEq K]

/-- `kmMat3Inverse` (mat3.c 78-94): `NULL` (here `none`) when the supplied
determinant is zero; otherwise the adjugate of `pM`, scaled by
`1.0 / pDeterminate`, is what is left in `*pOut`. -/
def kmMat3Inverse (oob : Nat → K) (pDeterminate : K) (pM : kmMat3 K) : Option (kmMat3 K) :=
  if pDeterminate = 0 then none
  else
    let detInv := 1 / pDeterminate
    let adjugate := kmMat3Adjugate oob pM
    some (kmMat3ScalarMultiply adjugate detInv)

end Field

section Ordered

variable {K : Type} [LinearOrderedField K]

/-- Modelled from the spec: the constant `KM_FALSE` of the header `utility.h`,
which is not among the sources; the value a C caller reads as "not equal". -/
def KM_FALSE : Int := 0

/-- The loop `for (i = 0; i < 9; ++i)` of `kmMat3AreEqual` (mat3.c 174-181) over
the indices still to visit: the early `return KM_FALSE` on the first element out
of tolerance, and the `return KM_FALSE` that follows the loop. -/
def kmMat3AreEqualLoop (kmEpsilon : K) (pMat1 pMat2 : kmMat3 K) : List (Fin 9) → Int
  | [] => KM_FALSE
  | i :: rest =>
    if ¬ (pMat1.mat i + kmEpsilon > pMat2.mat i ∧ pMat1.mat i - kmEpsilon < pMat2.mat i) then
      KM_FALSE
    else
      kmMat3AreEqualLoop kmEpsilon pMat1 pMat2 rest

/-- `kmMat3AreEqual` (mat3.c 169-182) on the store: `assert(pMat1 != pMat2)`
fails (here `none`) on equal pointers; otherwise the loop over the nine
elements.  The tolerance `kmEpsilon` of `utility.h` is a parameter. -/
def kmMat3AreEqual (kmEpsilon : K) (mem : Mem K) (pMat1 pMat2 : Nat) : Option Int :=
  if pMat1 = pMat2 then none
  else some (kmMat3AreEqualLoop kmEpsilon (mem pMat1) (mem pMat2) (List.finRange 9))

/-- All nine element pairs of `a` and `b` differ by less than `kmEpsilon`. -/
def withinEpsilon (kmEpsilon : K) (a b : kmMat3 K) : Prop :=
  ∀ i : Fin 9, |a.mat i - b.mat i| < kmEpsilon

end Ordered

/-! ## mat3.c and vec2.c: the functions that call the C math library

The library functions `sqrtf`, `cos`/`cosf` and `sin`/`sinf` are parameters of
the functions that call them; the theorems instantiate them with the real
square root, cosine and sine. -/

section Trig

variable {K : Type} [CommRing K]

/-- `kmMat3Rotation` (mat3.c 185-206): nine stores, `cosf`, `sinf` and `-sinf` of
the angle in the top-left block, zeros elsewhere and `1.0f` at index 8. -/
def kmMat3Rotation (cos sin : K → K) (radians : K) : kmMat3 K :=
  ⟨![cos radians, sin radians, 0,
     -sin radians, cos radians, 0,
     0, 0, 1]⟩

end Trig

section Vec2

variable {K : Type} [LinearOrderedField K]

/-- Modelled from the spec: the macro `kmSQR` of the header `utility.h`, which is
not among the sources; the square of its argument. -/
def kmSQR (s : K) : K := s * s

/-- Modelled from the spec: `kmDegreesToRadians` of the header `utility.h`,
which is not among the sources; degrees times pi over 180, the constant pi
being a parameter. -/
def kmDegreesToRadians (kmPI : K) (degrees : K) : K := degrees * (kmPI / 180)

/-- `kmVec2Length` (vec2.c 40-43). -/
def kmVec2Length (sqrt : K → K) (pIn : kmVec2 K) : K :=
  sqrt (kmSQR pIn.x + kmSQR pIn.y)

/-- `kmVec2Normalize` (vec2.c 50-62): both components are computed into the
local `v` before they are written to `*pOut`. -/
def kmVec2Normalize (sqrt : K → K) (pIn : kmVec2 K) : kmVec2 K :=
  let l := 1 / kmVec2Length sqrt pIn
  let vx := pIn.x * l
  let vy := pIn.y * l
  ⟨vx, vy⟩

/-- `kmVec2Add` (vec2.c 64-70): each component of the output depends on the same
component of the inputs only. -/
def kmVec2Add (pV1 pV2 : kmVec2 K) : kmVec2 K :=
  ⟨pV1.x + pV2.x, pV1.y + pV2.y⟩

/-- `kmVec2Subtract` (vec2.c 77-83). -/
def kmVec2Subtract (pV1 pV2 : kmVec2 K) : kmVec2 K :=
  ⟨pV1.x - pV2.x, pV1.y - pV2.y⟩

/-- `kmVec2Scale` (vec2.c 104-110). -/
def kmVec2Scale (pIn : kmVec2 K) (s : K) : kmVec2 K :=
  ⟨pIn.x * s, pIn.y * s⟩

/-- `kmVec2AreEqual` (vec2.c 112-118): the C value of the conjunction, 1 or 0.
The tolerance `kmEpsilon` of `utility.h` is a parameter. -/
def kmVec2AreEqual (kmEpsilon : K) (p1 p2 : kmVec2 K) : Int :=
  if (p1.x < p2.x + kmEpsilon ∧ p1.x > p2.x - kmEpsilon) ∧
      (p1.y < p2.y + kmEpsilon ∧ p1.y > p2.y - kmEpsilon) then 1 else 0

/-- `kmVec2DistanceBetween` (vec2.c 174-178): `fabs` of the length of
`v2 - v1`. -/
def kmVec2DistanceBetween (sqrt : K → K) (v1 v2 : kmVec2 K) : K :=
  let diff := kmVec2Subtract v2 v1
  |kmVec2Length sqrt diff|

/-- `kmVec2MidPointBetween` (vec2.c 182-189): the local `diff` is `v2 - v1`,
normalised in place, scaled in place by half the distance, and added to `v1`. -/
def kmVec2MidPointBetween (sqrt : K → K) (v1 v2 : kmVec2 K) : kmVec2 K :=
  let diff0 := kmVec2Subtract v2 v1
  let diff1 := kmVec2Normalize sqrt diff0
  let diff2 := kmVec2Scale diff1 (kmVec2DistanceBetween sqrt v1 v2 * (1 / 2))
  kmVec2Add v1 diff2

/-- The store of vectors: the `kmVec2` object found at each address. -/
abbrev VMem (K : Type) := Nat → kmVec2 K

/-- The store `p->x = v`. -/
def VMem.storeX {K : Type} (mem : VMem K) (p : Nat) (v : K) : VMem K :=
  Function.update mem p ⟨v, (mem p).y⟩

/-- The store `p->y = v`. -/
def VMem.storeY {K : Type} (mem : VMem K) (p : Nat) (v : K) : VMem K :=
  Function.update mem p ⟨(mem p).x, v⟩

/-- `kmVec2RotateBy` (vec2.c 141-158) on the store: the centre-relative
coordinates are written through `pOut` first, then read back from it, and the
centre is read again for the final two stores. -/
def kmVec2RotateBy (cos sin : K → K) (kmPI : K) (mem : VMem K) (pOut pIn : Nat)
    (degrees : K) (center : Nat) : VMem K :=
  let radians := kmDegreesToRadians kmPI degrees
  let cs := cos radians
  let sn := sin radians
  let st1 := VMem.storeX mem pOut ((mem pIn).x - (mem center).x)
  let st2 := VMem.storeY st1 pOut ((st1 pIn).y - (st1 center).y)
  let x := (st2 pOut).x * cs - (st2 pOut).y * sn
  let y := (st2 pOut).x * sn + (st2 pOut).y * cs
  let st3 := VMem.storeX st2 pOut (x + (st2 center).x)
  let st4 := VMem.storeY st3 pOut (y + (st3 center).y)
  st4

end Vec2

/-! ## Concrete inputs -/

/-- The unit shear: the identity with the entry at index 7 set to 1; its
determinant is 1. -/
def shearMat : kmMat3 ℚ := ⟨![1, 0, 0, 0, 1, 0, 0, 1, 1]⟩

/-- A matrix with nine distinct entries. -/
def distinctMat : kmMat3 ℚ := ⟨![1, 2, 3, 4, 5, 6, 7, 8, 10]⟩

/-- The memory past the array holding zeros. -/
def zeroPast : Nat → ℚ := fun _ => 0

/-- A store holding a copy of `distinctMat` at every address. -/
def constMem : Mem ℚ := fun _ => distinctMat

/-- A store of vectors holding the point (1, 0) at address 0 and the origin at
every other address. -/
def unitXMem {K : Type} [Zero K] [One K] : VMem K :=
  fun p => if p = 0 then ⟨1, 0⟩ else ⟨0, 0⟩

/-! ## Basic facts about the embedding -/

theorem finRange_three : List.finRange 3 = [0, 1, 2] := rfl

theorem finRange_nine : List.finRange 9 = [0, 1, 2, 3, 4, 5, 6, 7, 8] := rfl

theorem vec9_5 {α : Type} (a0 a1 a2 a3 a4 a5 a6 a7 a8 : α) :
    (![a0, a1, a2, a3, a4, a5, a6, a7, a8] : Fin 9 → α) 5 = a5 := rfl

theorem vec9_6 {α : Type} (a0 a1 a2 a3 a4 a5 a6 a7 a8 : α) :
    (![a0, a1, a2, a3, a4, a5, a6, a7, a8] : Fin 9 → α) 6 = a6 := rfl

theorem vec9_7 {α : Type} (a0 a1 a2 a3 a4 a5 a6 a7 a8 : α) :
    (![a0, a1, a2, a3, a4, a5, a6, a7, a8] : Fin 9 → α) 7 = a7 := rfl

theorem vec9_8 {α : Type} (a0 a1 a2 a3 a4 a5 a6 a7 a8 : α) :
    (![a0, a1, a2, a3, a4, a5, a6, a7, a8] : Fin 9 → α) 8 = a8 := rfl

theorem kmMat3Identity_mat {K : Type} [CommRing K] :
    (kmMat3Identity : kmMat3 K).mat = ![1, 0, 0, 0, 1, 0, 0, 0, 1] := by
  funext i
  fin_cases i <;> rfl

theorem kmMat3Translation_mat {K : Type} [CommRing K] (x y : K) :
    (kmMat3Translation x y).mat = ![0, 0, 0, 0, 0, 0, x, y, 1] := by
  funext i
  fin_cases i <;> rfl

theorem memcpyLocal_out {K : Type} (mem : Mem K) (pOut : Nat) (mat : Fin 9 → K) :
    memcpyLocal mem pOut mat pOut = ⟨mat⟩ := by
  apply kmMat3.ext
  funext i
  fin_cases i <;>
    simp [memcpyLocal, finRange_nine, Mem.store, kmMat3.set, Function.update]

theorem memcpyLocal_other {K : Type} (mem : Mem K) (pOut q : Nat) (mat : Fin 9 → K)
    (h : q ≠ pOut) : memcpyLocal mem pOut mat q = mem q := by
  simp [memcpyLocal, finRange_nine, Mem.store, Function.update, h]

/-- On distinct pointers the loop of `kmMat3Transpose` leaves in `*pOut` the
element `(i % 3) * 3 + i / 3` of `*pIn` at every index `i`. -/
theorem kmMat3Transpose_out {K : Type} (mem : Mem K) (pOut pIn : Nat) (h : pOut ≠ pIn) :
    kmMat3Transpose mem pOut pIn pOut
      = ⟨fun i => (mem pIn).mat ⟨(i.val % 3) * 3 + i.val / 3, by omega⟩⟩ := by
  have h' : pIn ≠ pOut := fun e => h e.symm
  apply kmMat3.ext
  funext i
  fin_cases i <;>
    simp [kmMat3Transpose, finRange_three, Mem.store, kmMat3.set, Function.update, idx3, h, h']

theorem kmMat3Transpose_other {K : Type} (mem : Mem K) (pOut pIn q : Nat) (h : q ≠ pOut) :
    kmMat3Transpose mem pOut pIn q = mem q := by
  simp [kmMat3Transpose, finRange_three, Mem.store, Function.update, h]

section Ring

variable {K : Type} [CommRing K]

theorem toMatrix_multiply (m1 m2 : kmMat3 K) :
    toMatrix (kmMat3Multiply m1 m2) = toMatrix m1 * toMatrix m2 := by
  ext r c
  fin_cases r <;> fin_cases c <;>
    simp [toMatrix, kmMat3Multiply, idx3, Matrix.mul_apply, Fin.sum_univ_three,
      vec9_5, vec9_6, vec9_7, vec9_8]

theorem kmMat3Multiply_identity_left (M : kmMat3 K) :
    kmMat3Multiply kmMat3Identity M = M := by
  apply kmMat3.ext
  funext i
  fin_cases i <;>
    simp [kmMat3Multiply, kmMat3Identity_mat, vec9_5, vec9_6, vec9_7, vec9_8]

theorem kmMat3Multiply_identity_right (M : kmMat3 K) :
    kmMat3Multiply M kmMat3Identity = M := by
  apply kmMat3.ext
  funext i
  fin_cases i <;>
    simp [kmMat3Multiply, kmMat3Identity_mat, vec9_5, vec9_6, vec9_7, vec9_8]

/-- Whatever the point, `kmVec2Transform` through the matrix built by
`kmMat3Translation x y` yields `(x, y)`: the matrix has a zero top-left block. -/
theorem kmVec2Transform_translation (p : kmVec2 K) (x y : K) :
    kmVec2Transform p (kmMat3Translation x y) = ⟨x, y⟩ := by
  simp [kmVec2Transform, kmMat3Translation_mat, vec9_6, vec9_7]

/-! ## The adjugate, entry by entry -/

theorem classicalAdjugate_mat (M : kmMat3 K) :
    (classicalAdjugate M).mat
      = ![cofactor (toMatrix M) 0 0, cofactor (toMatrix M) 0 1, cofactor (toMatrix M) 0 2,
          cofactor (toMatrix M) 1 0, cofactor (toMatrix M) 1 1, cofactor (toMatrix M) 1 2,
          cofactor (toMatrix M) 2 0, cofactor (toMatrix M) 2 1, cofactor (toMatrix M) 2 2] := by
  funext i
  fin_cases i <;> rfl

/-- The reference adjugate is the adjugate of Mathlib. -/
theorem classicalAdjugate_eq_adjugate (M : kmMat3 K) :
    toMatrix (classicalAdjugate M) = (toMatrix M).adjugate := by
  rw [Matrix.adjugate_fin_three]
  ext r c
  fin_cases r <;> fin_cases c <;>
    simp [classicalAdjugate_mat, cofactor, minor, toMatrix, idx3, Fin.succAbove,
      vec9_5, vec9_6, vec9_7, vec9_8] <;> ring

theorem kmMat3Adjugate_entry7 (oob : Nat → K) (M : kmMat3 K) :
    (kmMat3Adjugate oob M).mat 7 = M.mat 1 * M.mat 6 - oob 9 * M.mat 7 := by
  simp [kmMat3Adjugate, kmMat3AdjugateIdx, kmMat3.read, vec9_7]

theorem classicalAdjugate_entry7 (M : kmMat3 K) :
    (classicalAdjugate M).mat 7 = M.mat 1 * M.mat 6 - M.mat 0 * M.mat 7 := by
  simp [classicalAdjugate_mat, vec9_7, cofactor, minor, toMatrix, idx3, Fin.succAbove]
  ring

theorem kmMat3Adjugate_entry_ne7 (oob : Nat → K) (M : kmMat3 K) (k : Fin 9) (hk : k ≠ 7) :
    (kmMat3Adjugate oob M).mat k = (classicalAdjugate M).mat k := by
  fin_cases k <;>
    first
    | exact absurd rfl hk
    | (simp [kmMat3Adjugate, kmMat3AdjugateIdx, kmMat3.read, classicalAdjugate_mat, cofactor,
        minor, toMatrix, idx3, Fin.succAbove, vec9_5, vec9_6, vec9_7, vec9_8]; ring)

theorem kmMat3AdjugateReads_ne7 (k : Fin 9) (hk : k ≠ 7) :
    ∀ i ∈ kmMat3AdjugateReads k, i < 9 := by
  fin_cases k <;>
    first
    | exact absurd rfl hk
    | decide

/-- With the value of `M.mat[0]` found past the array, `kmMat3Adjugate` is the
classical adjugate. -/
theorem kmMat3Adjugate_of_repaired (oob : Nat → K) (M : kmMat3 K)
    (h9 : oob 9 = M.mat 0) : kmMat3Adjugate oob M = classicalAdjugate M := by
  apply kmMat3.ext
  funext k
  by_cases hk : k = 7
  · subst hk
    rw [kmMat3Adjugate_entry7, classicalAdjugate_entry7, h9]
  · exact kmMat3Adjugate_entry_ne7 oob M k hk

theorem kmMat3Multiply_classicalAdjugate (M : kmMat3 K) :
    kmMat3Multiply M (classicalAdjugate M)
      = kmMat3ScalarMultiply kmMat3Identity (kmMat3Determinant M) := by
  apply kmMat3.ext
  funext i
  fin_cases i <;>
    (simp [kmMat3Multiply, kmMat3ScalarMultiply, kmMat3Identity_mat, kmMat3Determinant,
      classicalAdjugate_mat, cofactor, minor, toMatrix, idx3, Fin.succAbove,
      vec9_5, vec9_6, vec9_7, vec9_8]; ring)

end Ring

/-- Were the read at index 9 answered with `M.mat[0]`, `kmMat3Inverse` would
return the inverse of every matrix with a non-zero determinant. -/
theorem kmMat3Inverse_of_repaired {K : Type} [Field K] [DecidableEq K] (oob : Nat → K)
    (M : kmMat3 K) (h9 : oob 9 = M.mat 0) (hd : kmMat3Determinant M ≠ 0) :
    ∃ inv, kmMat3Inverse oob (kmMat3Determinant M) M = some inv ∧
      kmMat3Multiply M inv = kmMat3Identity := by
  refine ⟨kmMat3ScalarMultiply (classicalAdjugate M) (1 / kmMat3Determinant M), ?_, ?_⟩
  · simp [kmMat3Inverse, hd, kmMat3Adjugate_of_repaired oob M h9]
  · have h := kmMat3Multiply_classicalAdjugate M
    have hm : kmMat3Multiply M (kmMat3ScalarMultiply (classicalAdjugate M)
        (1 / kmMat3Determinant M))
        = kmMat3ScalarMultiply (kmMat3Multiply M (classicalAdjugate M))
            (1 / kmMat3Determinant M) := by
      apply kmMat3.ext
      funext i
      fin_cases i <;>
        (simp [kmMat3Multiply, kmMat3ScalarMultiply, vec9_5, vec9_6, vec9_7, vec9_8]; ring)
    rw [hm, h]
    apply kmMat3.ext
    funext i
    simp only [kmMat3ScalarMultiply]
    rw [mul_assoc, mul_one_div_cancel hd, mul_one]

/-- For the unit shear, the product of the matrix with what `kmMat3Inverse`
returns has `1 - oob 9` at index 7, where the identity has 0. -/
theorem kmMat3Inverse_shear_entry7 (oob : Nat → ℚ) :
    ∃ inv, kmMat3Inverse oob 1 shearMat = some inv ∧
      (kmMat3Multiply shearMat inv).mat 7 = 1 - oob 9 := by
  refine ⟨kmMat3ScalarMultiply (kmMat3Adjugate oob shearMat) 1, by simp [kmMat3Inverse], ?_⟩
  simp [kmMat3Multiply, kmMat3ScalarMultiply, kmMat3Adjugate, kmMat3AdjugateIdx, kmMat3.read,
    shearMat, vec9_5, vec9_6, vec9_7, vec9_8]
  ring

/-- Both exits of the loop of `kmMat3AreEqual` return `KM_FALSE`. -/
theorem kmMat3AreEqualLoop_false {K : Type} [LinearOrderedField K] (kmEpsilon : K)
    (a b : kmMat3 K) (l : List (Fin 9)) :
    kmMat3AreEqualLoop kmEpsilon a b l = KM_FALSE := by
  induction l with
  | nil => rfl
  | cons i rest ih =>
    unfold kmMat3AreEqualLoop
    split
    · rfl
    · exact ih

/-! ## The claims -/

/-- C1 (code defect): the unit shear has determinant 1, yet with zeros past the
array `kmMat3Inverse` returns the identity matrix for it, and the product of
the shear with that result is the shear itself, not the identity. -/
theorem kmMat3Inverse_shear_not_inverse :
    kmMat3Determinant shearMat = 1 ∧
    kmMat3Inverse zeroPast (kmMat3Determinant shearMat) shearMat = some kmMat3Identity ∧
    kmMat3Multiply shearMat kmMat3Identity = shearMat ∧
    shearMat ≠ kmMat3Identity := by
  have hdet : kmMat3Determinant shearMat = 1 := by
    simp [kmMat3Determinant, shearMat, vec9_5, vec9_6, vec9_7, vec9_8]
  refine ⟨hdet, ?_, kmMat3Multiply_identity_right shearMat, ?_⟩
  · rw [hdet]
    simp only [kmMat3Inverse, one_ne_zero, if_false]
    congr 1
    apply kmMat3.ext
    funext i
    fin_cases i <;>
      simp [kmMat3ScalarMultiply, kmMat3Adjugate, kmMat3AdjugateIdx, kmMat3.read, shearMat,
        zeroPast, kmMat3Identity_mat, vec9_5, vec9_6, vec9_7, vec9_8]
  · intro h
    have h7 := congrArg (fun m => m.mat 7) h
    simp [shearMat, kmMat3Identity_mat, vec9_7] at h7

/-- C2 (code defect): for a matrix with nine distinct entries and zeros past the
array, entry 7 of `kmMat3Adjugate` is 14 where the classical adjugate has 6,
and the source line of entry 7 reads the input indices 1, 6, 9 and 7. -/
theorem kmMat3Adjugate_distinct_entry7 :
    (kmMat3Adjugate zeroPast distinctMat).mat 7 = 14 ∧
    (classicalAdjugate distinctMat).mat 7 = 6 ∧
    kmMat3AdjugateReads 7 = [1, 6, 9, 7] := by
  refine ⟨?_, ?_, rfl⟩
  · rw [kmMat3Adjugate_entry7]
    simp [distinctMat, zeroPast, vec9_6, vec9_7]
    norm_num
  · rw [classicalAdjugate_entry7]
    simp [distinctMat, vec9_6, vec9_7]
    norm_num

/-- C3 (code defect): two distinct locations holding the same nine values are
within every positive tolerance of each other, here 1/64, yet `kmMat3AreEqual`
returns `KM_FALSE`, which is 0. -/
theorem kmMat3AreEqual_identical_reports_false :
    withinEpsilon (1 / 64 : ℚ) (constMem 0) (constMem 1) ∧
    kmMat3AreEqual (1 / 64 : ℚ) constMem 0 1 = some KM_FALSE ∧ KM_FALSE = 0 := by
  refine ⟨?_, ?_, rfl⟩
  · intro i
    simp [constMem]
  · simp [kmMat3AreEqual, kmMat3AreEqualLoop_false]

/-- C4 (code defect): the matrix built by `kmMat3Translation 3 4` sends the
point (0,0) to (3,4) and also the point (1,1) to (3,4), which is not (4,5). -/
theorem kmVec2Transform_translation_3_4 :
    kmVec2Transform (⟨0, 0⟩ : kmVec2 ℚ) (kmMat3Translation 3 4) = ⟨3, 4⟩ ∧
    kmVec2Transform (⟨1, 1⟩ : kmVec2 ℚ) (kmMat3Translation 3 4) = ⟨3, 4⟩ ∧
    (⟨3, 4⟩ : kmVec2 ℚ) ≠ ⟨4, 5⟩ := by
  refine ⟨kmVec2Transform_translation _ 3 4, kmVec2Transform_translation _ 3 4, ?_⟩
  intro h
  have hx := congrArg kmVec2.x h
  norm_num at hx

section Claims

variable {K : Type} [CommRing K]

/-- C5: `kmMat3Determinant` of a column-major matrix is the determinant of the
3x3 matrix it stands for (the signed sum over the permutations), and equals the
cofactor expansion along each of the three rows. -/
theorem kmMat3Determinant_eq_det (M : kmMat3 K) :
    kmMat3Determinant M = (toMatrix M).det ∧
    ∀ r : Fin 3, kmMat3Determinant M
      = ∑ c : Fin 3, toMatrix M r c * cofactor (toMatrix M) r c := by
  constructor
  · rw [Matrix.det_fin_three]
    simp [kmMat3Determinant, toMatrix, idx3]
    ring
  · intro r
    fin_cases r <;>
      simp [kmMat3Determinant, toMatrix, idx3, cofactor, minor, Fin.sum_univ_three,
        Fin.succAbove] <;> ring

/-- C6: the element of `kmMat3Multiply m1 m2` at index `c * 3 + r` is the sum
over `k` of `m1[k * 3 + r] * m2[c * 3 + k]`, and so the result stands for the
matrix product of what `m1` and `m2` stand for. -/
theorem kmMat3Multiply_entry (m1 m2 : kmMat3 K) :
    (∀ r c : Fin 3, (kmMat3Multiply m1 m2).mat (idx3 c r)
      = ∑ k : Fin 3, m1.mat (idx3 k r) * m2.mat (idx3 c k)) ∧
    toMatrix (kmMat3Multiply m1 m2) = toMatrix m1 * toMatrix m2 := by
  refine ⟨?_, toMatrix_multiply m1 m2⟩
  intro r c
  fin_cases r <;> fin_cases c <;>
    simp [kmMat3Multiply, idx3, Fin.sum_univ_three, vec9_5, vec9_6, vec9_7, vec9_8]

end Claims

/-- C7: `kmMat3Inverse` returns no result exactly when the supplied determinant
is 0, and returns a result exactly when it is not, whatever the matrix. -/
theorem kmMat3Inverse_none_iff {K : Type} [Field K] [DecidableEq K] (oob : Nat → K) (d : K)
    (M : kmMat3 K) :
    (kmMat3Inverse oob d M = none ↔ d = 0) ∧
    ((kmMat3Inverse oob d M).isSome ↔ d ≠ 0) := by
  unfold kmMat3Inverse
  by_cases h : d = 0 <;> simp [h]

/-- C8: multiplying by the matrix of `kmMat3Identity`, on the left or on the
right, gives back the matrix, element for element. -/
theorem kmMat3Multiply_identity {K : Type} [CommRing K] (M : kmMat3 K) :
    kmMat3Multiply kmMat3Identity M = M ∧ kmMat3Multiply M kmMat3Identity = M :=
  ⟨kmMat3Multiply_identity_left M, kmMat3Multiply_identity_right M⟩

/-- C9: transposing the matrix at `pIn` into a distinct location `pOut1`, then
that one into a location `pOut2` distinct from `pOut1`, leaves in `pOut2` exactly
the original matrix; the intermediate result stands for the transposed matrix. -/
theorem kmMat3Transpose_twice {K : Type} (mem : Mem K) (pIn pOut1 pOut2 : Nat)
    (h1 : pOut1 ≠ pIn) (h2 : pOut2 ≠ pOut1) :
    kmMat3Transpose (kmMat3Transpose mem pOut1 pIn) pOut2 pOut1 pOut2 = mem pIn ∧
    ∀ r c : Fin 3, (kmMat3Transpose mem pOut1 pIn pOut1).mat (idx3 c r)
      = (mem pIn).mat (idx3 r c) := by
  constructor
  · rw [kmMat3Transpose_out _ _ _ h2, kmMat3Transpose_out _ _ _ h1]
    apply kmMat3.ext
    funext i
    fin_cases i <;> rfl
  · intro r c
    rw [kmMat3Transpose_out _ _ _ h1]
    fin_cases r <;> fin_cases c <;> rfl

/-- Witness of C9 on a store of rational matrices, with the pointers 0, 1, 2. -/
theorem kmMat3Transpose_twice_witness :
    (1 : Nat) ≠ 0 ∧ (2 : Nat) ≠ 1 ∧
    (kmMat3Transpose (kmMat3Transpose constMem 1 0) 2 1 2 = constMem 0 ∧
      ∀ r c : Fin 3, (kmMat3Transpose constMem 1 0 1).mat (idx3 c r)
        = (constMem 0).mat (idx3 r c)) :=
  ⟨by decide, by decide, kmMat3Transpose_twice constMem 0 1 2 (by decide) (by decide)⟩

/-- C10: with the output pointer equal to `pM1`, or equal to `pM2`, the nine
values `kmMat3Multiply` leaves there are the ones it leaves in any output
`pOut`, a distinct one included: the product of the original two matrices. -/
theorem kmMat3MultiplyMem_alias {K : Type} [CommRing K] (mem : Mem K) (pM1 pM2 pOut : Nat) :
    kmMat3MultiplyMem mem pM1 pM1 pM2 pM1 = kmMat3MultiplyMem mem pOut pM1 pM2 pOut ∧
    kmMat3MultiplyMem mem pM2 pM1 pM2 pM2 = kmMat3MultiplyMem mem pOut pM1 pM2 pOut ∧
    kmMat3MultiplyMem mem pOut pM1 pM2 pOut = kmMat3Multiply (mem pM1) (mem pM2) := by
  simp [kmMat3MultiplyMem, memcpyLocal_out]

/-! ## Facts for the vector functions -/

section SqrtFacts

variable {K : Type} [LinearOrderedField K]

/-- A function that is a square root on the non-negative scalars is positive on
the positive ones. -/
theorem sqrt_pos_of_spec (sqrt : K → K)
    (hsqrt : ∀ x, 0 ≤ x → 0 ≤ sqrt x ∧ sqrt x * sqrt x = x) (x : K) (hx : 0 < x) :
    0 < sqrt x := by
  obtain ⟨h0, h1⟩ := hsqrt x hx.le
  rcases h0.lt_or_eq with h | h
  · exact h
  · rw [← h] at h1
    simp at h1
    exact absurd h1 hx.ne

theorem sqrt_one_of_spec (sqrt : K → K)
    (hsqrt : ∀ x, 0 ≤ x → 0 ≤ sqrt x ∧ sqrt x * sqrt x = x) : sqrt 1 = 1 := by
  obtain ⟨h0, h1⟩ := hsqrt 1 zero_le_one
  nlinarith [h0, h1]

theorem lengthSq_pos (v : kmVec2 K) (hv : v ≠ ⟨0, 0⟩) : 0 < kmSQR v.x + kmSQR v.y := by
  unfold kmSQR
  by_contra h
  have hx : v.x = 0 := by nlinarith [mul_self_nonneg v.x, mul_self_nonneg v.y]
  have hy : v.y = 0 := by nlinarith [mul_self_nonneg v.x, mul_self_nonneg v.y]
  exact hv (kmVec2.ext hx hy)

theorem kmVec2Length_normalize_of_spec (sqrt : K → K)
    (hsqrt : ∀ x, 0 ≤ x → 0 ≤ sqrt x ∧ sqrt x * sqrt x = x) (v : kmVec2 K)
    (hv : v ≠ ⟨0, 0⟩) : kmVec2Length sqrt (kmVec2Normalize sqrt v) = 1 := by
  have hS := lengthSq_pos v hv
  have hL := sqrt_pos_of_spec sqrt hsqrt _ hS
  have hLL := (hsqrt _ hS.le).2
  have harg : kmSQR (v.x * (1 / sqrt (kmSQR v.x + kmSQR v.y)))
      + kmSQR (v.y * (1 / sqrt (kmSQR v.x + kmSQR v.y))) = 1 := by
    have hne := hL.ne'
    unfold kmSQR at *
    field_simp
    nlinarith [hLL]
  simp only [kmVec2Length, kmVec2Normalize]
  simp only [kmVec2Length] at harg
  rw [harg]
  exact sqrt_one_of_spec sqrt hsqrt

theorem kmVec2MidPointBetween_of_spec (sqrt : K → K)
    (hsqrt : ∀ x, 0 ≤ x → 0 ≤ sqrt x ∧ sqrt x * sqrt x = x) (a b : kmVec2 K)
    (hab : a ≠ b) :
    kmVec2MidPointBetween sqrt a b = ⟨(a.x + b.x) / 2, (a.y + b.y) / 2⟩ := by
  have hd : kmVec2Subtract b a ≠ ⟨0, 0⟩ := by
    intro h
    apply hab
    have hx := congrArg kmVec2.x h
    have hy := congrArg kmVec2.y h
    simp only [kmVec2Subtract] at hx hy
    exact kmVec2.ext (by linarith) (by linarith)
  have hS := lengthSq_pos _ hd
  have hL := sqrt_pos_of_spec sqrt hsqrt _ hS
  simp only [kmVec2Subtract] at hS hL
  have hne := hL.ne'
  simp only [kmVec2MidPointBetween, kmVec2Add, kmVec2Scale, kmVec2Normalize,
    kmVec2DistanceBetween, kmVec2Length, kmVec2Subtract, abs_of_pos hL]
  apply kmVec2.ext
  · simp only
    field_simp
    ring
  · simp only
    field_simp
    ring

end SqrtFacts

/-- The real square root has the two properties asked of `sqrtf`. -/
theorem real_sqrt_spec : ∀ x : ℝ, 0 ≤ x → 0 ≤ Real.sqrt x ∧ Real.sqrt x * Real.sqrt x = x :=
  fun x hx => ⟨Real.sqrt_nonneg x, Real.mul_self_sqrt hx⟩

section RingFacts

variable {K : Type} [CommRing K]

/-- The determinant computed by the code is the determinant of the matrix the
array stands for. -/
theorem kmMat3Determinant_det (M : kmMat3 K) : kmMat3Determinant M = (toMatrix M).det := by
  rw [Matrix.det_fin_three]
  simp [kmMat3Determinant, toMatrix, idx3]
  ring

theorem kmMat3Determinant_translation (x y : K) :
    kmMat3Determinant (kmMat3Translation x y) = 0 := by
  simp [kmMat3Determinant, kmMat3Translation_mat, vec9_5, vec9_6, vec9_7, vec9_8]

end RingFacts

/-- With the output distinct from the centre, what `kmVec2RotateBy` leaves in the
output, for any cosine, sine and value of pi. -/
theorem kmVec2RotateBy_out {K : Type} [LinearOrderedField K] (cos sin : K → K) (kmPI : K)
    (mem : VMem K) (pOut pIn center : Nat) (degrees : K) (h : pOut ≠ center) :
    kmVec2RotateBy cos sin kmPI mem pOut pIn degrees center pOut
      = ⟨(mem center).x + ((mem pIn).x - (mem center).x) * cos (kmDegreesToRadians kmPI degrees)
            - ((mem pIn).y - (mem center).y) * sin (kmDegreesToRadians kmPI degrees),
         (mem center).y + ((mem pIn).x - (mem center).x) * sin (kmDegreesToRadians kmPI degrees)
            + ((mem pIn).y - (mem center).y) * cos (kmDegreesToRadians kmPI degrees)⟩ := by
  have h' : center ≠ pOut := fun e => h e.symm
  by_cases hin : pIn = pOut
  · subst hin
    apply kmVec2.ext <;>
      simp [kmVec2RotateBy, VMem.storeX, VMem.storeY, Function.update, h, h'] <;> ring
  · apply kmVec2.ext <;>
      simp [kmVec2RotateBy, VMem.storeX, VMem.storeY, Function.update, h, h', hin] <;> ring

/-! ## The claims on the vector functions and the remaining matrix claims -/

/-- C11: over the reals, with the real square root for `sqrtf`, the length of
the normalisation of every non-zero vector is exactly 1. -/
theorem kmVec2Length_normalize (v : kmVec2 ℝ) (hv : v ≠ ⟨0, 0⟩) :
    kmVec2Length Real.sqrt (kmVec2Normalize Real.sqrt v) = 1 :=
  kmVec2Length_normalize_of_spec Real.sqrt real_sqrt_spec v hv

/-- Witness of C11 at the vector (3, 4). -/
theorem kmVec2Length_normalize_witness :
    (⟨3, 4⟩ : kmVec2 ℝ) ≠ ⟨0, 0⟩ ∧
    kmVec2Length Real.sqrt (kmVec2Normalize Real.sqrt ⟨3, 4⟩) = 1 :=
  have h : (⟨3, 4⟩ : kmVec2 ℝ) ≠ ⟨0, 0⟩ := by
    intro e
    have hx := congrArg kmVec2.x e
    norm_num at hx
  ⟨h, kmVec2Length_normalize ⟨3, 4⟩ h⟩

/-- C12: over the reals, for two distinct points the result of
`kmVec2MidPointBetween` is the average of the two points, component by
component; the midpoint of (0,0) and (4,0) is (2,0). -/
theorem kmVec2MidPointBetween_average (a b : kmVec2 ℝ) (hab : a ≠ b) :
    kmVec2MidPointBetween Real.sqrt a b = ⟨(a.x + b.x) / 2, (a.y + b.y) / 2⟩ ∧
    kmVec2MidPointBetween Real.sqrt (⟨0, 0⟩ : kmVec2 ℝ) ⟨4, 0⟩ = ⟨2, 0⟩ := by
  refine ⟨kmVec2MidPointBetween_of_spec Real.sqrt real_sqrt_spec a b hab, ?_⟩
  have h04 : (⟨0, 0⟩ : kmVec2 ℝ) ≠ ⟨4, 0⟩ := by
    intro e
    have hx := congrArg kmVec2.x e
    norm_num at hx
  rw [kmVec2MidPointBetween_of_spec Real.sqrt real_sqrt_spec _ _ h04]
  apply kmVec2.ext <;> norm_num

/-- Witness of C12 at the points (1, 2) and (3, 6). -/
theorem kmVec2MidPointBetween_average_witness :
    (⟨1, 2⟩ : kmVec2 ℝ) ≠ ⟨3, 6⟩ ∧
    (kmVec2MidPointBetween Real.sqrt (⟨1, 2⟩ : kmVec2 ℝ) ⟨3, 6⟩
        = ⟨((1 : ℝ) + 3) / 2, ((2 : ℝ) + 6) / 2⟩ ∧
      kmVec2MidPointBetween Real.sqrt (⟨0, 0⟩ : kmVec2 ℝ) ⟨4, 0⟩ = ⟨2, 0⟩) :=
  have h : (⟨1, 2⟩ : kmVec2 ℝ) ≠ ⟨3, 6⟩ := by
    intro e
    have hx := congrArg kmVec2.x e
    norm_num at hx
  ⟨h, kmVec2MidPointBetween_average ⟨1, 2⟩ ⟨3, 6⟩ h⟩

/-- C13: over the reals, with the output distinct from the centre,
`kmVec2RotateBy` leaves in the output the centre plus the anticlockwise rotation
of the centre-relative point by the angle `degrees * pi / 180`; rotating (1,0)
by 90 degrees about the origin gives (0,1). -/
theorem kmVec2RotateBy_spec (mem : VMem ℝ) (pOut pIn center : Nat) (degrees : ℝ)
    (h : pOut ≠ center) :
    kmVec2RotateBy Real.cos Real.sin Real.pi mem pOut pIn degrees center pOut
      = ⟨(mem center).x + ((mem pIn).x - (mem center).x) * Real.cos (degrees * (Real.pi / 180))
            - ((mem pIn).y - (mem center).y) * Real.sin (degrees * (Real.pi / 180)),
         (mem center).y + ((mem pIn).x - (mem center).x) * Real.sin (degrees * (Real.pi / 180))
            + ((mem pIn).y - (mem center).y) * Real.cos (degrees * (Real.pi / 180))⟩ ∧
    kmVec2RotateBy Real.cos Real.sin Real.pi unitXMem 2 0 90 1 2 = ⟨0, 1⟩ := by
  constructor
  · exact kmVec2RotateBy_out Real.cos Real.sin Real.pi mem pOut pIn center degrees h
  · rw [kmVec2RotateBy_out Real.cos Real.sin Real.pi unitXMem 2 0 1 90 (by decide)]
    have h90 : kmDegreesToRadians Real.pi 90 = Real.pi / 2 := by
      unfold kmDegreesToRadians
      ring
    rw [h90, Real.cos_pi_div_two, Real.sin_pi_div_two]
    apply kmVec2.ext <;> simp [unitXMem]

/-- Witness of C13 on the store `unitXMem`, with input 0, centre 1, output 2. -/
theorem kmVec2RotateBy_spec_witness :
    (2 : Nat) ≠ 1 ∧
    (kmVec2RotateBy Real.cos Real.sin Real.pi unitXMem 2 0 90 1 2
      = ⟨(unitXMem 1 : kmVec2 ℝ).x + ((unitXMem 0 : kmVec2 ℝ).x - (unitXMem 1 : kmVec2 ℝ).x)
              * Real.cos (90 * (Real.pi / 180))
            - ((unitXMem 0 : kmVec2 ℝ).y - (unitXMem 1 : kmVec2 ℝ).y)
              * Real.sin (90 * (Real.pi / 180)),
         (unitXMem 1 : kmVec2 ℝ).y + ((unitXMem 0 : kmVec2 ℝ).x - (unitXMem 1 : kmVec2 ℝ).x)
              * Real.sin (90 * (Real.pi / 180))
            + ((unitXMem 0 : kmVec2 ℝ).y - (unitXMem 1 : kmVec2 ℝ).y)
              * Real.cos (90 * (Real.pi / 180))⟩ ∧
    kmVec2RotateBy Real.cos Real.sin Real.pi unitXMem 2 0 90 1 2 = ⟨0, 1⟩) :=
  ⟨by decide, kmVec2RotateBy_spec unitXMem 2 0 1 90 (by decide)⟩

/-- C14: for a positive tolerance `kmVec2AreEqual` is reflexive (it returns 1 on
every pair `v`, `v`) and symmetric (it returns the same value on `a`, `b` and on
`b`, `a`). -/
theorem kmVec2AreEqual_refl_symm {K : Type} [LinearOrderedField K] (kmEpsilon : K)
    (heps : 0 < kmEpsilon) :
    (∀ v : kmVec2 K, kmVec2AreEqual kmEpsilon v v = 1) ∧
    ∀ a b : kmVec2 K, kmVec2AreEqual kmEpsilon a b = kmVec2AreEqual kmEpsilon b a := by
  constructor
  · intro v
    have h1 : v.x < v.x + kmEpsilon := by linarith
    have h2 : v.x > v.x - kmEpsilon := by linarith
    have h3 : v.y < v.y + kmEpsilon := by linarith
    have h4 : v.y > v.y - kmEpsilon := by linarith
    simp [kmVec2AreEqual, h1, h2, h3, h4]
  · intro a b
    unfold kmVec2AreEqual
    have hiff : ((a.x < b.x + kmEpsilon ∧ a.x > b.x - kmEpsilon) ∧
        (a.y < b.y + kmEpsilon ∧ a.y > b.y - kmEpsilon)) ↔
        ((b.x < a.x + kmEpsilon ∧ b.x > a.x - kmEpsilon) ∧
        (b.y < a.y + kmEpsilon ∧ b.y > a.y - kmEpsilon)) := by
      constructor <;>
      · rintro ⟨⟨h1, h2⟩, h3, h4⟩
        refine ⟨⟨?_, ?_⟩, ?_, ?_⟩ <;> linarith
    simp only [hiff]

/-- Witness of C14 at the tolerance 1/64 over the rationals. -/
theorem kmVec2AreEqual_refl_symm_witness :
    (0 : ℚ) < 1 / 64 ∧
    ((∀ v : kmVec2 ℚ, kmVec2AreEqual (1 / 64) v v = 1) ∧
     ∀ a b : kmVec2 ℚ, kmVec2AreEqual (1 / 64) a b = kmVec2AreEqual (1 / 64) b a) :=
  ⟨by norm_num, kmVec2AreEqual_refl_symm (1 / 64) (by norm_num)⟩

/-- C15: the matrix of `kmMat3Rotation` at the angle 0 has 1, 0, 0, 1 at the
indices 0, 1, 3, 4 and 0 at the translation indices 6 and 7. -/
theorem kmMat3Rotation_zero :
    (kmMat3Rotation Real.cos Real.sin 0).mat 0 = 1 ∧
    (kmMat3Rotation Real.cos Real.sin 0).mat 1 = 0 ∧
    (kmMat3Rotation Real.cos Real.sin 0).mat 3 = 0 ∧
    (kmMat3Rotation Real.cos Real.sin 0).mat 4 = 1 ∧
    (kmMat3Rotation Real.cos Real.sin 0).mat 6 = 0 ∧
    (kmMat3Rotation Real.cos Real.sin 0).mat 7 = 0 := by
  simp [kmMat3Rotation, vec9_6, vec9_7]

/-- C16 (code defect): transposing the matrix 1,2,3,4,5,6,7,8,10 in place leaves
1,4,7,4,5,8,7,8,10, while transposing it into a distinct output gives
1,4,7,2,5,8,3,6,10; the two differ at index 3. -/
theorem kmMat3Transpose_in_place_distinct :
    kmMat3Transpose constMem 0 0 0 = ⟨![1, 4, 7, 4, 5, 8, 7, 8, 10]⟩ ∧
    kmMat3Transpose constMem 1 0 1 = ⟨![1, 4, 7, 2, 5, 8, 3, 6, 10]⟩ ∧
    (kmMat3Transpose constMem 0 0 0).mat 3 ≠ (kmMat3Transpose constMem 1 0 1).mat 3 := by
  have h1 : kmMat3Transpose constMem 0 0 0 = ⟨![1, 4, 7, 4, 5, 8, 7, 8, 10]⟩ := by
    apply kmMat3.ext
    funext i
    fin_cases i <;>
      simp [kmMat3Transpose, finRange_three, Mem.store, kmMat3.set, Function.update, idx3,
        constMem, distinctMat, vec9_5, vec9_6, vec9_7, vec9_8]
  have h2 : kmMat3Transpose constMem 1 0 1 = ⟨![1, 4, 7, 2, 5, 8, 3, 6, 10]⟩ := by
    apply kmMat3.ext
    funext i
    fin_cases i <;>
      simp [kmMat3Transpose, finRange_three, Mem.store, kmMat3.set, Function.update, idx3,
        constMem, distinctMat, vec9_5, vec9_6, vec9_7, vec9_8]
  refine ⟨h1, h2, ?_⟩
  rw [h1, h2]
  norm_num

/-- C18: the determinant of every matrix built by `kmMat3Translation` is 0, the
matrix it stands for has determinant 0, and `kmMat3Inverse` called with that
determinant and matrix returns no result. -/
theorem kmMat3Inverse_translation_none {K : Type} [Field K] [DecidableEq K] (oob : Nat → K)
    (x y : K) :
    kmMat3Determinant (kmMat3Translation x y) = 0 ∧
    (toMatrix (kmMat3Translation x y)).det = 0 ∧
    kmMat3Inverse oob (kmMat3Determinant (kmMat3Translation x y)) (kmMat3Translation x y)
      = none := by
  have h := kmMat3Determinant_translation x y
  refine ⟨h, ?_, by simp [kmMat3Inverse, h]⟩
  rw [← kmMat3Determinant_det, h]

/-- C19: when the bottom row of `B` is (0, 0, 1), transforming a point by `B` and
then by `A` is transforming it by `kmMat3Multiply A B`. -/
theorem kmVec2Transform_multiply {K : Type} [CommRing K] (A B : kmMat3 K) (v : kmVec2 K)
    (h2 : B.mat 2 = 0) (h5 : B.mat 5 = 0) (h8 : B.mat 8 = 1) :
    kmVec2Transform (kmVec2Transform v B) A = kmVec2Transform v (kmMat3Multiply A B) := by
  apply kmVec2.ext <;>
    simp [kmVec2Transform, kmMat3Multiply, h2, h5, h8, vec9_6, vec9_7] <;> ring

/-- Witness of C19 at `distinctMat`, `shearMat` and the point (1, 1). -/
theorem kmVec2Transform_multiply_witness :
    shearMat.mat 2 = 0 ∧ shearMat.mat 5 = 0 ∧ shearMat.mat 8 = 1 ∧
    kmVec2Transform (kmVec2Transform (⟨1, 1⟩ : kmVec2 ℚ) shearMat) distinctMat
      = kmVec2Transform ⟨1, 1⟩ (kmMat3Multiply distinctMat shearMat) :=
  ⟨rfl, rfl, rfl, kmVec2Transform_multiply distinctMat shearMat ⟨1, 1⟩ rfl rfl rfl⟩

/-- C20: the determinant of `kmMat3Multiply A B` is the product of the
determinants of `A` and `B`. -/
theorem kmMat3Determinant_multiply {K : Type} [CommRing K] (A B : kmMat3 K) :
    kmMat3Determinant (kmMat3Multiply A B) = kmMat3Determinant A * kmMat3Determinant B := by
  rw [kmMat3Determinant_det, kmMat3Determinant_det, kmMat3Determinant_det, toMatrix_multiply,
    Matrix.det_mul]

end KazMath
